import Mathlib

/-!
Verification of the depth-range model, the depth-range parser, the tree
renderer and the token-stream renderer of the `tree-viewer` tool
(`src/cli.rs` and `src/main.rs`).

Strings are embedded as Lean `String`s; the character-level operations the
Rust code uses (`str::contains`, `str::split`, `str::starts_with`,
`str::ends_with`, `usize::from_str`) are modelled over the underlying
`List Char`, specialised to the two separators `".."` and `"..="` that the
parser actually uses.  Machine integers (`usize`) are modelled as `Nat`
together with the explicit bound `usizeMax = 2 ^ 64 - 1`; `usize::from_str`
rejects values above that bound, which the model reproduces.
-/

namespace TreeViewer

/-- `usize::MAX` on a 64-bit target: the maximum representable depth. -/
def usizeMax : Nat := 2 ^ 64 - 1

/-- Is `c` one of the ASCII digits `'0'`..`'9'`?  (`char::to_digit(10)`
succeeds exactly on these.) -/
def isAsciiDigit (c : Char) : Bool := 48 ≤ c.toNat && c.toNat ≤ 57

/-- Value of a list of ASCII digit characters read in base 10. -/
def digitsVal (l : List Char) : Nat := l.foldl (fun a c => a * 10 + (c.toNat - 48)) 0

/-- Drop one leading `'+'` sign if present (`usize::from_str` accepts an
optional leading `'+'`). -/
def stripPlus : List Char → List Char
  | [] => []
  | c :: rest => if c = '+' then rest else c :: rest

/-- Model of `s.parse::<usize>()` (`usize::from_str`): an optional `'+'`
followed by a non-empty run of ASCII digits, whose value must fit in
`usize`; `none` models `Err(ParseIntError)`. -/
def parseUsize (s : List Char) : Option Nat :=
  let t := stripPlus s
  if t ≠ [] ∧ t.all isAsciiDigit then
    if digitsVal t ≤ usizeMax then some (digitsVal t) else none
  else none

/-- Model of `s.starts_with("..")`. -/
def startsWithDD : List Char → Bool
  | c :: c2 :: _ => c == '.' && c2 == '.'
  | _ => false

/-- Model of `s.ends_with("..")`: the reversed string starts with the
reversed separator (which is again `".."`). -/
def endsWithDD (s : List Char) : Bool := startsWithDD s.reverse

/-- Model of `s.contains("..")`. -/
def containsDD : List Char → Bool
  | [] => false
  | [_] => false
  | c :: c2 :: rest => if c = '.' ∧ c2 = '.' then true else containsDD (c2 :: rest)

/-- Model of `s.contains("..=")`. -/
def containsDDE : List Char → Bool
  | [] => false
  | [_] => false
  | [_, _] => false
  | c :: c2 :: c3 :: rest =>
    if c = '.' ∧ c2 = '.' ∧ c3 = '=' then true else containsDDE (c2 :: c3 :: rest)

/-- Prepend a character to the first piece of a split result. -/
def consHead (c : Char) : List (List Char) → List (List Char)
  | [] => [[c]]
  | p :: ps => (c :: p) :: ps

/-- Model of `s.split("..")`: split on non-overlapping left-to-right
occurrences of `".."`. -/
def splitDD : List Char → List (List Char)
  | [] => [[]]
  | [c] => [[c]]
  | c :: c2 :: rest =>
    if c = '.' ∧ c2 = '.' then [] :: splitDD rest
    else consHead c (splitDD (c2 :: rest))

/-- Model of `s.split("..=")`. -/
def splitDDE : List Char → List (List Char)
  | [] => [[]]
  | [c] => [[c]]
  | [c, c2] => [[c, c2]]
  | c :: c2 :: c3 :: rest =>
    if c = '.' ∧ c2 = '.' ∧ c3 = '=' then [] :: splitDDE rest
    else consHead c (splitDDE (c2 :: c3 :: rest))

/-- `Endpoint` from `src/cli.rs`: one bound of a depth range. -/
inductive Endpoint where
  | Inclusive (n : Nat)
  | Exclusive (n : Nat)
deriving DecidableEq

/-- The numeric value carried by an endpoint. -/
def Endpoint.val : Endpoint → Nat
  | .Inclusive n => n
  | .Exclusive n => n

/-- `DepthRange` from `src/cli.rs`: a pair of endpoints. -/
structure DepthRange where
  start : Endpoint
  «end» : Endpoint
deriving DecidableEq

/-- Tail of `DepthRange::from_str` once a separator has been detected:
`s` is the whole input, `parts` the split pieces, `endInclusive` records
whether the separator was `"..="`.  Mirrors `src/cli.rs` lines 40-91. -/
def finishSplit (s : List Char) (parts : List (List Char)) (endInclusive : Bool) :
    Except String DepthRange :=
  if startsWithDD s then
    match parseUsize (parts.getD (parts.length - 1) []) with
    | none => Except.error "Invalid end number"
    | some endNum =>
      Except.ok ⟨Endpoint.Inclusive 0,
        if endInclusive then Endpoint.Inclusive endNum else Endpoint.Exclusive endNum⟩
  else if endsWithDD s then
    match parseUsize (parts.getD 0 []) with
    | none => Except.error "Invalid start number"
    | some startNum => Except.ok ⟨Endpoint.Inclusive startNum, Endpoint.Inclusive usizeMax⟩
  else if parts.length = 2 then
    match parseUsize (parts.getD 0 []) with
    | none => Except.error "Invalid start number"
    | some startNum =>
      match parseUsize (parts.getD 1 []) with
      | none => Except.error "Invalid end number"
      | some endNum =>
        if startNum > endNum then Except.error "Start must be less than or equal to end"
        else
          Except.ok ⟨Endpoint.Inclusive startNum,
            if endInclusive then Endpoint.Inclusive endNum else Endpoint.Exclusive endNum⟩
  else Except.error "Invalid range format"

/-- `DepthRange::from_str` (`src/cli.rs` lines 22-92) over the character
list: first try to parse the whole expression as a single `usize`;
otherwise detect the separator (`"..="` takes precedence over `".."`),
split on it, and classify. -/
def fromChars (cs : List Char) : Except String DepthRange :=
  match parseUsize cs with
  | some single => Except.ok ⟨Endpoint.Inclusive single, Endpoint.Inclusive single⟩
  | none =>
    if containsDDE cs then finishSplit cs (splitDDE cs) true
    else if containsDD cs then finishSplit cs (splitDD cs) false
    else Except.error "Invalid range format"

/-- `DepthRange::from_str` on a string. -/
def DepthRange.from_str (s : String) : Except String DepthRange := fromChars s.data

/-- `DepthRange::contains` (`src/cli.rs` lines 97-107). -/
def DepthRange.contains (r : DepthRange) (depth : Nat) : Bool :=
  let start_ok := match r.start with
    | Endpoint.Inclusive start => depth ≥ start
    | Endpoint.Exclusive start => depth > start
  let end_ok := match r.«end» with
    | Endpoint.Inclusive e => depth ≤ e
    | Endpoint.Exclusive e => depth < e
  start_ok && end_ok

/-- Did parsing return an error? -/
def isErr : Except String DepthRange → Bool
  | Except.error _ => true
  | Except.ok _ => false

/-- `DisplayConfig` from `src/cli.rs`: the seven display toggles. -/
structure DisplayConfig where
  show_range : Bool
  show_all_text : Bool
  show_node_text : Bool
  show_token_text : Bool
  show_node_type : Bool
  show_sql_separator : Bool
  show_sql : Bool

/-- `DisplayConfig::should_show_text` (`src/cli.rs` lines 131-137). -/
def DisplayConfig.should_show_text (c : DisplayConfig) (is_token : Bool) : Bool :=
  if is_token then c.show_token_text else c.show_all_text || c.show_node_text

/-- The configuration with every display flag disabled. -/
def cfgOff : DisplayConfig := ⟨false, false, false, false, false, false, false⟩

/-- Canonical decimal digits of `n`, most significant first (the exact
characters `format!` produces for a `usize`). -/
def natDigits (n : Nat) : List Char :=
  if _h : n < 10 then [Char.ofNat (48 + n)]
  else natDigits (n / 10) ++ [Char.ofNat (48 + n % 10)]
decreasing_by exact Nat.div_lt_self (by omega) (by omega)

/-- Canonical decimal string of `n`. -/
def natStr (n : Nat) : String := String.mk (natDigits n)

/-!
The CST consumed by the renderers (`src/main.rs`).  The external
tree-sitter node is opaque: the renderers only use `kind()`, `range()`
(consumed via its `Display` rendering, kept here as a plain string),
`text()`, `child_count()`, and first-child / next-sibling / parent
navigation.  A node is therefore a kind label, a rendered range, a text
slice and an ordered list of children; the mutual `Tree`/`TreeList` shape
mirrors the first-child/next-sibling cursor interface.
-/

mutual
inductive Tree where
  | mk (kind rangeStr text : String) (children : TreeList)
inductive TreeList where
  | nil
  | cons (t : Tree) (ts : TreeList)
end

def Tree.kind : Tree → String
  | .mk k _ _ _ => k

def Tree.rangeStr : Tree → String
  | .mk _ r _ _ => r

def Tree.text : Tree → String
  | .mk _ _ x _ => x

def Tree.children : Tree → TreeList
  | .mk _ _ _ cs => cs

def TreeList.length : TreeList → Nat
  | .nil => 0
  | .cons _ ts => 1 + TreeList.length ts

/-- `node.child_count()`. -/
def Tree.child_count (t : Tree) : Nat := t.children.length

mutual
def Tree.size : Tree → Nat
  | .mk _ _ _ cs => 1 + TreeList.size cs
def TreeList.size : TreeList → Nat
  | .nil => 0
  | .cons t ts => Tree.size t + TreeList.size ts
end

/- Pre-order traversal (node first, then children left to right). -/
mutual
def Tree.preorder : Tree → List Tree
  | .mk k r x cs => Tree.mk k r x cs :: TreeList.preorder cs
def TreeList.preorder : TreeList → List Tree
  | .nil => []
  | .cons t ts => Tree.preorder t ++ TreeList.preorder ts
end

/- Pre-order traversal paired with the depth at which each node is
visited (the recursion depth of `write_tree`). -/
mutual
def Tree.preorderD : Tree → Nat → List (Tree × Nat)
  | .mk k r x cs, d => (Tree.mk k r x cs, d) :: TreeList.preorderD cs (d + 1)
def TreeList.preorderD : TreeList → Nat → List (Tree × Nat)
  | .nil, _ => []
  | .cons t ts, d => Tree.preorderD t d ++ TreeList.preorderD ts d
end

/-- Concatenation of a list of strings. -/
def strConcat : List String → String
  | [] => ""
  | s :: rest => s ++ strConcat rest

/-- Model of `char::escape_debug` on the escapes the tool can meet in SQL
text (newline, carriage return, tab, backslash, both quote characters);
other characters are kept unchanged. -/
def escChar (c : Char) : List Char :=
  if c = Char.ofNat 10 then [Char.ofNat 92, 'n']
  else if c = Char.ofNat 13 then [Char.ofNat 92, 'r']
  else if c = Char.ofNat 9 then [Char.ofNat 92, 't']
  else if c = Char.ofNat 92 then [Char.ofNat 92, Char.ofNat 92]
  else if c = Char.ofNat 34 then [Char.ofNat 92, Char.ofNat 34]
  else if c = Char.ofNat 39 then [Char.ofNat 92, Char.ofNat 39]
  else [c]

/-- Model of `str::escape_debug`. -/
def escapeDebug (s : String) : String :=
  String.mk (s.data.foldr (fun c acc => escChar c ++ acc) [])

/-- `INDENT_SIZE` from `src/main.rs`. -/
def INDENT_SIZE : Nat := 2

/-- `should_print` from `src/main.rs` lines 12-17: no range means "print
everything". -/
def should_print (depth : Nat) (range : Option DepthRange) : Bool :=
  match range with
  | none => true
  | some range => range.contains depth

/-- The reference depth for indentation, from `src/main.rs` lines 41-47:
the start bound's value, plus one if the start bound is exclusive; `0`
when no range is given. -/
def base_depth (range : Option DepthRange) : Nat :=
  match range with
  | some range =>
    match range.start with
    | Endpoint.Inclusive start => start
    | Endpoint.Exclusive start => start + 1
  | none => 0

/-- The indentation written for a printed node, from `src/main.rs` lines
49-60: nothing at depth `0`; otherwise a dash ladder of width
`(relative_depth - 1) * INDENT_SIZE` followed by `"-+"`, where
`relative_depth` is `depth - base_depth` clamped to `0`. -/
def indentOf (depth : Nat) (range : Option DepthRange) : String :=
  if depth > 0 then
    let relative_depth := if depth > base_depth range then depth - base_depth range else 0
    if relative_depth > 0 then
      String.mk (List.replicate ((relative_depth - 1) * INDENT_SIZE) '-') ++ "-+"
    else ""
  else ""

/-- The single line `write_tree` emits for a node it displays
(`src/main.rs` lines 49-79): indentation, kind, optional node-type tag,
optional range, optional escaped quoted text, newline. -/
def nodeLine (t : Tree) (depth : Nat) (range : Option DepthRange) (config : DisplayConfig) :
    String :=
  let is_token := t.child_count = 0
  indentOf depth range
    ++ t.kind
    ++ (if config.show_node_type then (if is_token then " (Token)" else " (Node)") else "")
    ++ (if config.show_range then " " ++ t.rangeStr else "")
    ++ (if config.should_show_text is_token then " \"" ++ escapeDebug t.text ++ "\"" else "")
    ++ "\n"

/- `write_tree` from `src/main.rs` lines 30-93: emit the node's line when
its depth is in range, then always recurse into every child at
`depth + 1`.  Writing into a `String` cannot fail, so the `fmt::Result`
is dropped and the accumulated output returned directly. -/
mutual
def writeTree : Tree → Nat → Option DepthRange → DisplayConfig → String
  | Tree.mk k r x cs, depth, range, config =>
    (if should_print depth range then nodeLine (Tree.mk k r x cs) depth range config else "")
      ++ writeTreeList cs (depth + 1) range config
def writeTreeList : TreeList → Nat → Option DepthRange → DisplayConfig → String
  | TreeList.nil, _, _, _ => ""
  | TreeList.cons t ts, depth, range, config =>
    writeTree t depth range config ++ writeTreeList ts depth range config
end

/-- The line `print_tokens` emits for one leaf (`src/main.rs` lines
102-113): kind, then `@range` unless suppressed, then the escaped quoted
text on the same line if requested, then the newline from `println!`. -/
def tokenLine (hide_range show_text : Bool) (t : Tree) : String :=
  (if !hide_range then t.kind ++ "@" ++ t.rangeStr else t.kind)
    ++ (if show_text then " \"" ++ escapeDebug t.text ++ "\"" else "")
    ++ "\n"

/-- One step of the ascending part of the token cursor walk
(`src/main.rs` lines 120-126): repeatedly try `goto_next_sibling`, and
when the current level is exhausted `goto_parent`; `none` models
returning from `print_tokens` at the root. -/
def findNext : List TreeList → Option (Tree × List TreeList)
  | [] => none
  | TreeList.cons next after :: rest => some (next, after :: rest)
  | TreeList.nil :: rest => findNext rest

/-- Total size of the trees still pending on the cursor stack. -/
def stackSize (s : List TreeList) : Nat := (s.map TreeList.size).sum

theorem Tree.size_pos (t : Tree) : 0 < t.size := by
  cases t with
  | mk k r x cs => simp only [Tree.size]; omega

theorem findNext_size {s : List TreeList} {t : Tree} {s' : List TreeList}
    (h : findNext s = some (t, s')) : t.size + stackSize s' ≤ stackSize s := by
  induction s with
  | nil => simp [findNext] at h
  | cons hd rest ih =>
    cases hd with
    | nil =>
      simp [findNext] at h
      have := ih h
      simp [stackSize, TreeList.size] at *
      omega
    | cons nx af =>
      simp [findNext] at h
      obtain ⟨h1, h2⟩ := h
      subst h1; subst h2
      simp [stackSize, TreeList.size]
      omega

/-- What one iteration of the `print_tokens` loop prints for the current
node: its token line when it is a leaf, nothing otherwise
(`src/main.rs` lines 100-113). -/
def tokOut (hr st : Bool) (cur : Tree) : String :=
  if cur.child_count = 0 then tokenLine hr st cur else ""

/-- The loop of `print_tokens` (`src/main.rs` lines 99-127): emit the
current node when it is a leaf, descend to the first child when there is
one, otherwise advance via `findNext`; the stack holds, for every
ancestor level, the siblings not yet visited. -/
def tokGo (hr st : Bool) (cur : Tree) (stack : List TreeList) : String :=
  match _h : cur.children with
  | TreeList.cons c cs => tokOut hr st cur ++ tokGo hr st c (cs :: stack)
  | TreeList.nil =>
    match _h2 : findNext stack with
    | none => tokOut hr st cur
    | some (next, stack') => tokOut hr st cur ++ tokGo hr st next stack'
termination_by cur.size + stackSize stack
decreasing_by
  · cases cur with
    | mk k r x cs0 =>
      simp [Tree.children] at _h
      subst _h
      simp [Tree.size, stackSize, TreeList.size]
      omega
  · have := findNext_size _h2
    have hp : 0 < Tree.size cur := Tree.size_pos cur
    omega

/-- `print_tokens` from `src/main.rs` lines 95-128, started at the root
with an empty cursor stack; the printed stream is returned as a string. -/
def print_tokens (node : Tree) (hide_range show_text : Bool) : String :=
  tokGo hide_range show_text node []

/-! Helper lemmas about string concatenation. -/

theorem strConcat_append (l₁ l₂ : List String) :
    strConcat (l₁ ++ l₂) = strConcat l₁ ++ strConcat l₂ := by
  induction l₁ with
  | nil => simp [strConcat]
  | cons s rest ih => simp [strConcat, ih, String.append_assoc]

/-! Structure of the tree renderer: `write_tree` emits, along the full
pre-order traversal (never pruned by the range), exactly the lines of the
nodes whose depth the range admits. -/

mutual
theorem writeTree_eq_preorder (t : Tree) (d : Nat) (r : Option DepthRange) (c : DisplayConfig) :
    writeTree t d r c =
      strConcat ((Tree.preorderD t d).map
        (fun p => if should_print p.2 r then nodeLine p.1 p.2 r c else "")) := by
  cases t with
  | mk k rg x cs =>
    rw [writeTree, Tree.preorderD]
    rw [writeTreeList_eq_preorder cs (d + 1) r c]
    simp [strConcat]
theorem writeTreeList_eq_preorder (ts : TreeList) (d : Nat) (r : Option DepthRange)
    (c : DisplayConfig) :
    writeTreeList ts d r c =
      strConcat ((TreeList.preorderD ts d).map
        (fun p => if should_print p.2 r then nodeLine p.1 p.2 r c else "")) := by
  cases ts with
  | nil => rw [writeTreeList, TreeList.preorderD]; rfl
  | cons t rest =>
    rw [writeTreeList, TreeList.preorderD]
    rw [writeTree_eq_preorder t d r c, writeTreeList_eq_preorder rest d r c]
    rw [List.map_append, strConcat_append]
end

/-! With every display flag off, a node's line is its indentation followed
by its kind label and the newline. -/

theorem should_show_text_off (b : Bool) : cfgOff.should_show_text b = false := by
  cases b <;> rfl

theorem nodeLine_off (t : Tree) (d : Nat) (r : Option DepthRange) :
    nodeLine t d r cfgOff = indentOf d r ++ t.kind ++ "\n" := by
  have h1 : cfgOff.show_node_type = false := rfl
  have h2 : cfgOff.show_range = false := rfl
  simp [nodeLine, h1, h2, should_show_text_off, String.append_assoc]

theorem writeTree_off (t : Tree) :
    writeTree t 0 none cfgOff =
      strConcat ((Tree.preorderD t 0).map (fun p => indentOf p.2 none ++ p.1.kind ++ "\n")) := by
  rw [writeTree_eq_preorder]
  congr 1
  apply List.map_congr_left
  intro p _
  simp [should_print, nodeLine_off]

/-! Indentation: range-relative, clamped at zero. -/

theorem indentOf_le_base (depth : Nat) (r : Option DepthRange) (h : depth ≤ base_depth r) :
    indentOf depth r = "" := by
  unfold indentOf
  by_cases h0 : depth > 0
  · have hrel : ¬ depth > base_depth r := by omega
    simp [h0, hrel]
  · simp [h0]

theorem indentOf_gt_base (depth : Nat) (r : Option DepthRange) (h : base_depth r < depth) :
    (indentOf depth r).length = (depth - base_depth r - 1) * INDENT_SIZE + 2 := by
  unfold indentOf
  have h0 : depth > 0 := by omega
  have hrel : depth > base_depth r := h
  have hpos : depth - base_depth r > 0 := by omega
  simp only [h0, if_true, hrel, hpos, if_pos]
  rw [String.length_append]
  simp [String.length, List.length_replicate]

/-! Decimal digit strings and `usize` parsing. -/

theorem isAsciiDigit_ne_dot {c : Char} (h : isAsciiDigit c = true) : c ≠ '.' := by
  intro h2; rw [h2] at h; exact absurd h (by decide)

theorem isAsciiDigit_ne_plus {c : Char} (h : isAsciiDigit c = true) : c ≠ '+' := by
  intro h2; rw [h2] at h; exact absurd h (by decide)

theorem isAsciiDigit_ne_eq {c : Char} (h : isAsciiDigit c = true) : c ≠ '=' := by
  intro h2; rw [h2] at h; exact absurd h (by decide)

theorem isAsciiDigit_ofNat_digit {d : Nat} (h : d < 10) :
    isAsciiDigit (Char.ofNat (48 + d)) = true := by
  interval_cases d <;> decide

theorem toNat_ofNat_digit {d : Nat} (h : d < 10) : (Char.ofNat (48 + d)).toNat = 48 + d := by
  interval_cases d <;> decide

theorem natDigits_all_digit (n : Nat) : (natDigits n).all isAsciiDigit = true := by
  induction n using natDigits.induct with
  | case1 n h =>
    rw [natDigits]
    simp only [h, dite_true]
    simp [isAsciiDigit_ofNat_digit h]
  | case2 n h ih =>
    rw [natDigits]
    simp only [h, dite_false]
    rw [List.all_append]
    have hm : n % 10 < 10 := Nat.mod_lt _ (by omega)
    simp [ih, isAsciiDigit_ofNat_digit hm]

theorem natDigits_ne_nil (n : Nat) : natDigits n ≠ [] := by
  induction n using natDigits.induct with
  | case1 n h => rw [natDigits]; simp [h]
  | case2 n h ih => rw [natDigits]; simp [h]

theorem digitsVal_append_single (l : List Char) (c : Char) :
    digitsVal (l ++ [c]) = digitsVal l * 10 + (c.toNat - 48) := by
  unfold digitsVal
  rw [List.foldl_append]
  rfl

theorem digitsVal_natDigits (n : Nat) : digitsVal (natDigits n) = n := by
  induction n using natDigits.induct with
  | case1 n h =>
    rw [natDigits]
    simp only [h, dite_true]
    simp [digitsVal, toNat_ofNat_digit h]
  | case2 n h ih =>
    rw [natDigits]
    simp only [h, dite_false]
    rw [digitsVal_append_single, ih]
    have hm : n % 10 < 10 := Nat.mod_lt _ (by omega)
    rw [toNat_ofNat_digit hm]
    omega

theorem parseUsize_le_max {l : List Char} {v : Nat} (h : parseUsize l = some v) :
    v ≤ usizeMax := by
  unfold parseUsize at h
  simp only [] at h
  split_ifs at h with h1 h2
  injection h with h3
  omega

theorem parseUsize_natDigits (n : Nat) (hn : n ≤ usizeMax) :
    parseUsize (natDigits n) = some n := by
  have hne := natDigits_ne_nil n
  have hall := natDigits_all_digit n
  have hstrip : stripPlus (natDigits n) = natDigits n := by
    cases hd : natDigits n with
    | nil => exact absurd hd hne
    | cons c t =>
      have hc : isAsciiDigit c = true := by
        have := hall
        rw [hd, List.all_cons] at this
        exact (Bool.and_eq_true_iff.mp this).1
      simp [stripPlus, isAsciiDigit_ne_plus hc]
  simp [parseUsize, hstrip, hne, hall, digitsVal_natDigits n, hn]

theorem parseUsize_none_of_bad {s : List Char} {c : Char} (hmem : c ∈ s)
    (hc1 : isAsciiDigit c = false) (hc2 : c ≠ '+') : parseUsize s = none := by
  have hmem' : c ∈ stripPlus s := by
    cases s with
    | nil => exact absurd hmem (by simp)
    | cons a t =>
      by_cases ha : a = '+'
      · rcases List.mem_cons.mp hmem with h | h
        · exact absurd (h.trans ha) hc2
        · simpa [stripPlus, ha] using h
      · simpa [stripPlus, ha] using hmem
  have hall : (stripPlus s).all isAsciiDigit = false := by
    by_contra hfalse
    have : (stripPlus s).all isAsciiDigit = true := by
      cases hb : (stripPlus s).all isAsciiDigit
      · exact absurd hb hfalse
      · rfl
    have := List.all_eq_true.mp this c hmem'
    rw [hc1] at this
    exact absurd this (by decide)
  simp [parseUsize, hall]

theorem parseUsize_contains_dot {s : List Char} (h : '.' ∈ s) : parseUsize s = none :=
  parseUsize_none_of_bad h (by decide) (by decide)

theorem exists_head_digit {l : List Char} (hne : l ≠ []) (hall : l.all isAsciiDigit = true) :
    ∃ c t, l = c :: t ∧ isAsciiDigit c = true := by
  cases l with
  | nil => exact absurd rfl hne
  | cons c t =>
    refine ⟨c, t, rfl, ?_⟩
    rw [List.all_cons] at hall
    exact (Bool.and_eq_true_iff.mp hall).1

/-! Behaviour of the separator search and split on digit strings. -/

theorem startsWithDD_cons_of_ne {x : Char} (hx : x ≠ '.') (t : List Char) :
    startsWithDD (x :: t) = false := by
  cases t with
  | nil => rfl
  | cons c2 t' => simp [startsWithDD, hx]

theorem containsDD_cons_of_ne {x : Char} (hx : x ≠ '.') (t : List Char) :
    containsDD (x :: t) = containsDD t := by
  cases t with
  | nil => rfl
  | cons y t' => simp [containsDD, hx]

theorem containsDD_sep (xs ys : List Char) (hxs : xs.all isAsciiDigit = true) :
    containsDD (xs ++ '.' :: '.' :: ys) = true := by
  induction xs with
  | nil => simp [containsDD]
  | cons x t ih =>
    rw [List.all_cons] at hxs
    obtain ⟨hx, ht⟩ := Bool.and_eq_true_iff.mp hxs
    rw [List.cons_append, containsDD_cons_of_ne (isAsciiDigit_ne_dot hx)]
    exact ih ht

theorem containsDDE_cons_of_ne {x : Char} (hx : x ≠ '.') (t : List Char) :
    containsDDE (x :: t) = containsDDE t := by
  cases t with
  | nil => rfl
  | cons y t' =>
    cases t' with
    | nil => rfl
    | cons z t'' => simp [containsDDE, hx]

theorem containsDDE_digits {l : List Char} (h : l.all isAsciiDigit = true) :
    containsDDE l = false := by
  induction l with
  | nil => rfl
  | cons x t ih =>
    rw [List.all_cons] at h
    obtain ⟨hx, ht⟩ := Bool.and_eq_true_iff.mp h
    rw [containsDDE_cons_of_ne (isAsciiDigit_ne_dot hx)]
    exact ih ht

theorem containsDDE_sep (xs ys : List Char) (hxs : xs.all isAsciiDigit = true) :
    containsDDE (xs ++ '.' :: '.' :: '=' :: ys) = true := by
  induction xs with
  | nil => simp [containsDDE]
  | cons x t ih =>
    rw [List.all_cons] at hxs
    obtain ⟨hx, ht⟩ := Bool.and_eq_true_iff.mp hxs
    rw [List.cons_append, containsDDE_cons_of_ne (isAsciiDigit_ne_dot hx)]
    exact ih ht

theorem containsDDE_dd_digits (xs ys : List Char) (hxs : xs.all isAsciiDigit = true)
    (hys : ys.all isAsciiDigit = true) :
    containsDDE (xs ++ '.' :: '.' :: ys) = false := by
  induction xs with
  | nil =>
    rw [List.nil_append]
    cases ys with
    | nil => rfl
    | cons y ys' =>
      have hy : isAsciiDigit y = true := by
        rw [List.all_cons] at hys
        exact (Bool.and_eq_true_iff.mp hys).1
      rw [show containsDDE ('.' :: '.' :: y :: ys') = containsDDE ('.' :: y :: ys') from by
        simp [containsDDE, isAsciiDigit_ne_eq hy]]
      cases ys' with
      | nil => rfl
      | cons z ys'' =>
        rw [show containsDDE ('.' :: y :: z :: ys'') = containsDDE (y :: z :: ys'') from by
          simp [containsDDE, isAsciiDigit_ne_dot hy]]
        exact containsDDE_digits hys
  | cons x t ih =>
    rw [List.all_cons] at hxs
    obtain ⟨hx, ht⟩ := Bool.and_eq_true_iff.mp hxs
    rw [List.cons_append, containsDDE_cons_of_ne (isAsciiDigit_ne_dot hx)]
    exact ih ht

theorem splitDD_cons_of_ne {x : Char} (hx : x ≠ '.') (t : List Char) :
    splitDD (x :: t) = consHead x (splitDD t) := by
  cases t with
  | nil => rfl
  | cons y t' => simp [splitDD, hx]

theorem splitDD_digits {l : List Char} (h : l.all isAsciiDigit = true) : splitDD l = [l] := by
  induction l with
  | nil => rfl
  | cons x t ih =>
    rw [List.all_cons] at h
    obtain ⟨hx, ht⟩ := Bool.and_eq_true_iff.mp h
    rw [splitDD_cons_of_ne (isAsciiDigit_ne_dot hx), ih ht]
    rfl

theorem splitDD_sep (xs ys : List Char) (hxs : xs.all isAsciiDigit = true) :
    splitDD (xs ++ '.' :: '.' :: ys) = xs :: splitDD ys := by
  induction xs with
  | nil => simp [splitDD]
  | cons x t ih =>
    rw [List.all_cons] at hxs
    obtain ⟨hx, ht⟩ := Bool.and_eq_true_iff.mp hxs
    rw [List.cons_append, splitDD_cons_of_ne (isAsciiDigit_ne_dot hx), ih ht]
    rfl

theorem splitDDE_cons_of_ne {x : Char} (hx : x ≠ '.') (t : List Char) :
    splitDDE (x :: t) = consHead x (splitDDE t) := by
  cases t with
  | nil => rfl
  | cons y t' =>
    cases t' with
    | nil => rfl
    | cons z t'' => simp [splitDDE, hx]

theorem splitDDE_digits {l : List Char} (h : l.all isAsciiDigit = true) : splitDDE l = [l] := by
  induction l with
  | nil => rfl
  | cons x t ih =>
    rw [List.all_cons] at h
    obtain ⟨hx, ht⟩ := Bool.and_eq_true_iff.mp h
    rw [splitDDE_cons_of_ne (isAsciiDigit_ne_dot hx), ih ht]
    rfl

theorem splitDDE_sep (xs ys : List Char) (hxs : xs.all isAsciiDigit = true) :
    splitDDE (xs ++ '.' :: '.' :: '=' :: ys) = xs :: splitDDE ys := by
  induction xs with
  | nil => simp [splitDDE]
  | cons x t ih =>
    rw [List.all_cons] at hxs
    obtain ⟨hx, ht⟩ := Bool.and_eq_true_iff.mp hxs
    rw [List.cons_append, splitDDE_cons_of_ne (isAsciiDigit_ne_dot hx), ih ht]
    rfl

theorem endsWithDD_append_digits {ys : List Char} (l : List Char)
    (hys : ys.all isAsciiDigit = true) (hne : ys ≠ []) : endsWithDD (l ++ ys) = false := by
  have hrne : ys.reverse ≠ [] := by
    intro hr
    exact hne (List.reverse_eq_nil_iff.mp hr)
  cases hr : ys.reverse with
  | nil => exact absurd hr hrne
  | cons c t =>
    have hc : isAsciiDigit c = true := by
      have hm : c ∈ ys.reverse := by rw [hr]; exact List.mem_cons_self c t
      exact List.all_eq_true.mp hys c (List.mem_reverse.mp hm)
    unfold endsWithDD
    rw [List.reverse_append, hr, List.cons_append]
    exact startsWithDD_cons_of_ne (isAsciiDigit_ne_dot hc) _

theorem endsWithDD_dd (xs : List Char) : endsWithDD (xs ++ ['.', '.']) = true := by
  unfold endsWithDD
  rw [List.reverse_append]
  rw [show List.reverse ['.', '.'] = ['.', '.'] from by decide]
  rfl

/-! The parser on each recognised input form.  Every lemma ends in the
exact `Except` value `DepthRange::from_str` computes. -/

theorem fromChars_single (n : Nat) (hn : n ≤ usizeMax) :
    fromChars (natDigits n) = Except.ok ⟨Endpoint.Inclusive n, Endpoint.Inclusive n⟩ := by
  unfold fromChars
  rw [parseUsize_natDigits n hn]

theorem fromChars_dd (n m : Nat) (hn : n ≤ usizeMax) (hm : m ≤ usizeMax) :
    fromChars (natDigits n ++ '.' :: '.' :: natDigits m) =
      if n > m then Except.error "Start must be less than or equal to end"
      else Except.ok ⟨Endpoint.Inclusive n, Endpoint.Exclusive m⟩ := by
  have halln := natDigits_all_digit n
  have hallm := natDigits_all_digit m
  have hnem := natDigits_ne_nil m
  have hp : parseUsize (natDigits n ++ '.' :: '.' :: natDigits m) = none :=
    parseUsize_contains_dot (by simp)
  have hdde := containsDDE_dd_digits (natDigits n) (natDigits m) halln hallm
  have hdd := containsDD_sep (natDigits n) (natDigits m) halln
  have hsplit : splitDD (natDigits n ++ '.' :: '.' :: natDigits m) =
      [natDigits n, natDigits m] := by
    rw [splitDD_sep _ _ halln, splitDD_digits hallm]
  obtain ⟨c, t, hct, hc⟩ := exists_head_digit (natDigits_ne_nil n) halln
  have hsw : startsWithDD (natDigits n ++ '.' :: '.' :: natDigits m) = false := by
    rw [hct, List.cons_append]
    exact startsWithDD_cons_of_ne (isAsciiDigit_ne_dot hc) _
  have hew : endsWithDD (natDigits n ++ '.' :: '.' :: natDigits m) = false := by
    rw [show natDigits n ++ '.' :: '.' :: natDigits m =
        (natDigits n ++ ['.', '.']) ++ natDigits m from by simp]
    exact endsWithDD_append_digits _ hallm hnem
  unfold fromChars
  rw [hp, hdde, hdd, hsplit]
  unfold finishSplit
  rw [hsw, hew]
  simp only [Bool.false_eq_true, if_false, List.length_cons, List.length_nil]
  norm_num
  rw [parseUsize_natDigits n hn, parseUsize_natDigits m hm]

theorem fromChars_dde (n m : Nat) (hn : n ≤ usizeMax) (hm : m ≤ usizeMax) :
    fromChars (natDigits n ++ '.' :: '.' :: '=' :: natDigits m) =
      if n > m then Except.error "Start must be less than or equal to end"
      else Except.ok ⟨Endpoint.Inclusive n, Endpoint.Inclusive m⟩ := by
  have halln := natDigits_all_digit n
  have hallm := natDigits_all_digit m
  have hnem := natDigits_ne_nil m
  have hp : parseUsize (natDigits n ++ '.' :: '.' :: '=' :: natDigits m) = none :=
    parseUsize_contains_dot (by simp)
  have hdde := containsDDE_sep (natDigits n) (natDigits m) halln
  have hsplit : splitDDE (natDigits n ++ '.' :: '.' :: '=' :: natDigits m) =
      [natDigits n, natDigits m] := by
    rw [splitDDE_sep _ _ halln, splitDDE_digits hallm]
  obtain ⟨c, t, hct, hc⟩ := exists_head_digit (natDigits_ne_nil n) halln
  have hsw : startsWithDD (natDigits n ++ '.' :: '.' :: '=' :: natDigits m) = false := by
    rw [hct, List.cons_append]
    exact startsWithDD_cons_of_ne (isAsciiDigit_ne_dot hc) _
  have hew : endsWithDD (natDigits n ++ '.' :: '.' :: '=' :: natDigits m) = false := by
    rw [show natDigits n ++ '.' :: '.' :: '=' :: natDigits m =
        (natDigits n ++ ['.', '.', '=']) ++ natDigits m from by simp]
    exact endsWithDD_append_digits _ hallm hnem
  unfold fromChars
  rw [hp, hdde, hsplit]
  unfold finishSplit
  rw [hsw, hew]
  simp only [Bool.false_eq_true, if_false, List.length_cons, List.length_nil]
  norm_num
  rw [parseUsize_natDigits n hn, parseUsize_natDigits m hm]

theorem fromChars_open_end (n : Nat) (hn : n ≤ usizeMax) :
    fromChars (natDigits n ++ ['.', '.']) =
      Except.ok ⟨Endpoint.Inclusive n, Endpoint.Inclusive usizeMax⟩ := by
  have halln := natDigits_all_digit n
  have hp : parseUsize (natDigits n ++ ['.', '.']) = none :=
    parseUsize_contains_dot (by simp)
  have hdde : containsDDE (natDigits n ++ ['.', '.']) = false := by
    rw [show (['.', '.'] : List Char) = '.' :: '.' :: ([] : List Char) from rfl]
    exact containsDDE_dd_digits (natDigits n) [] halln rfl
  have hdd : containsDD (natDigits n ++ ['.', '.']) = true :=
    containsDD_sep (natDigits n) [] halln
  have hsplit : splitDD (natDigits n ++ ['.', '.']) = [natDigits n, []] := by
    rw [show (['.', '.'] : List Char) = '.' :: '.' :: ([] : List Char) from rfl,
      splitDD_sep _ _ halln]
    rfl
  obtain ⟨c, t, hct, hc⟩ := exists_head_digit (natDigits_ne_nil n) halln
  have hsw : startsWithDD (natDigits n ++ ['.', '.']) = false := by
    rw [hct, List.cons_append]
    exact startsWithDD_cons_of_ne (isAsciiDigit_ne_dot hc) _
  have hew : endsWithDD (natDigits n ++ ['.', '.']) = true := endsWithDD_dd (natDigits n)
  unfold fromChars
  rw [hp, hdde, hdd, hsplit]
  unfold finishSplit
  rw [hsw, hew]
  simp only [Bool.false_eq_true, if_false, if_true]
  rw [show ([natDigits n, ([] : List Char)].getD 0 []) = natDigits n from rfl]
  rw [parseUsize_natDigits n hn]

/-! Shape of every range the parser can return: the start endpoint is
always inclusive and its value never exceeds the end endpoint's value. -/

theorem finishSplit_ok_inv {s : List Char} {parts : List (List Char)} {ei : Bool}
    {r : DepthRange} (h : finishSplit s parts ei = Except.ok r) :
    (∃ n, r.start = Endpoint.Inclusive n) ∧ r.start.val ≤ r.«end».val := by
  unfold finishSplit at h
  by_cases h1 : startsWithDD s = true
  · rw [if_pos h1] at h
    cases hq : parseUsize (parts.getD (parts.length - 1) []) with
    | none => rw [hq] at h; exact Except.noConfusion h
    | some e =>
      rw [hq] at h
      injection h with h'
      subst h'
      refine ⟨⟨0, rfl⟩, ?_⟩
      cases ei <;> simp [Endpoint.val]
  · rw [if_neg h1] at h
    by_cases h2 : endsWithDD s = true
    · rw [if_pos h2] at h
      cases hq : parseUsize (parts.getD 0 []) with
      | none => rw [hq] at h; exact Except.noConfusion h
      | some v =>
        rw [hq] at h
        injection h with h'
        subst h'
        exact ⟨⟨v, rfl⟩, parseUsize_le_max hq⟩
    · rw [if_neg h2] at h
      by_cases h3 : parts.length = 2
      · rw [if_pos h3] at h
        cases hq1 : parseUsize (parts.getD 0 []) with
        | none => rw [hq1] at h; exact Except.noConfusion h
        | some v1 =>
          rw [hq1] at h
          cases hq2 : parseUsize (parts.getD 1 []) with
          | none => rw [hq2] at h; exact Except.noConfusion h
          | some v2 =>
            rw [hq2] at h
            dsimp only at h
            by_cases hgt : v1 > v2
            · rw [if_pos hgt] at h
              exact Except.noConfusion h
            · rw [if_neg hgt] at h
              injection h with h'
              subst h'
              refine ⟨⟨v1, rfl⟩, ?_⟩
              cases ei <;> simp [Endpoint.val] <;> omega
      · rw [if_neg h3] at h
        exact Except.noConfusion h

theorem fromChars_ok_inv {cs : List Char} {r : DepthRange}
    (h : fromChars cs = Except.ok r) :
    (∃ n, r.start = Endpoint.Inclusive n) ∧ r.start.val ≤ r.«end».val := by
  unfold fromChars at h
  cases hq : parseUsize cs with
  | some v =>
    rw [hq] at h
    injection h with h'
    subst h'
    exact ⟨⟨v, rfl⟩, le_refl _⟩
  | none =>
    rw [hq] at h
    by_cases h1 : containsDDE cs = true
    · rw [if_pos h1] at h
      exact finishSplit_ok_inv h
    · rw [if_neg h1] at h
      by_cases h2 : containsDD cs = true
      · rw [if_pos h2] at h
        exact finishSplit_ok_inv h
      · rw [if_neg h2] at h
        exact Except.noConfusion h

/-! The token-stream walk: unfolding lemmas for `tokGo`, and the
correspondence with the leaf sub-sequence of the pre-order traversal. -/

theorem tokGo_unfold_cons {cur c : Tree} {cs : TreeList} (hr st : Bool)
    (stack : List TreeList) (h : cur.children = TreeList.cons c cs) :
    tokGo hr st cur stack = tokOut hr st cur ++ tokGo hr st c (cs :: stack) := by
  rw [tokGo]
  split
  · rename_i c' cs' heq
    rw [h] at heq
    injection heq with h1 h2
    subst h1; subst h2
    rfl
  · rename_i heq
    rw [h] at heq
    exact absurd heq (by simp)

theorem tokGo_unfold_leaf_done {cur : Tree} (hr st : Bool) (stack : List TreeList)
    (h : cur.children = TreeList.nil) (h2 : findNext stack = none) :
    tokGo hr st cur stack = tokOut hr st cur := by
  rw [tokGo]
  split
  · rename_i c' cs' heq
    rw [h] at heq
    exact absurd heq (by simp)
  · split
    · rfl
    · rename_i next stack' heq2
      rw [h2] at heq2
      exact absurd heq2 (by simp)

theorem tokGo_unfold_leaf_next {cur next : Tree} {stack stack' : List TreeList}
    (hr st : Bool) (h : cur.children = TreeList.nil)
    (h2 : findNext stack = some (next, stack')) :
    tokGo hr st cur stack = tokOut hr st cur ++ tokGo hr st next stack' := by
  rw [tokGo]
  split
  · rename_i c' cs' heq
    rw [h] at heq
    exact absurd heq (by simp)
  · split
    · rename_i heq2
      rw [h2] at heq2
      exact absurd heq2 (by simp)
    · rename_i n' s' heq2
      rw [h2] at heq2
      injection heq2 with h3
      injection h3 with h4 h5
      subst h4; subst h5
      rfl

/-- What the walk prints for the whole subtree rooted at `t`: the token
lines of the leaves of `t`, in pre-order. -/
def emitT (hr st : Bool) (t : Tree) : String :=
  strConcat (((Tree.preorder t).filter (fun u => u.child_count == 0)).map (tokenLine hr st))

/-- The same for a sibling list. -/
def emitL (hr st : Bool) (ts : TreeList) : String :=
  strConcat (((TreeList.preorder ts).filter (fun u => u.child_count == 0)).map (tokenLine hr st))

/-- The same for the pending sibling lists on the cursor stack. -/
def emitStack (hr st : Bool) (stack : List TreeList) : String :=
  strConcat (stack.map (emitL hr st))

theorem child_count_mk (k r x : String) (cs : TreeList) :
    (Tree.mk k r x cs).child_count = cs.length := rfl

theorem emitT_leaf (hr st : Bool) {t : Tree} (h : t.children = TreeList.nil) :
    emitT hr st t = tokenLine hr st t := by
  cases t with
  | mk k r x cs =>
    have hcs : cs = TreeList.nil := h
    subst hcs
    unfold emitT
    rw [Tree.preorder, TreeList.preorder]
    simp [Tree.child_count, Tree.children, TreeList.length, strConcat, String.append_empty]

theorem emitT_node (hr st : Bool) (k r x : String) (c : Tree) (cs : TreeList) :
    emitT hr st (Tree.mk k r x (TreeList.cons c cs)) = emitL hr st (TreeList.cons c cs) := by
  unfold emitT emitL
  rw [Tree.preorder]
  have hcc : (Tree.mk k r x (TreeList.cons c cs)).child_count ≠ 0 := by
    rw [child_count_mk, TreeList.length]
    omega
  simp [List.filter_cons, hcc]

theorem emitL_cons (hr st : Bool) (t : Tree) (ts : TreeList) :
    emitL hr st (TreeList.cons t ts) = emitT hr st t ++ emitL hr st ts := by
  unfold emitL emitT
  rw [TreeList.preorder, List.filter_append, List.map_append, strConcat_append]

theorem emitL_nil (hr st : Bool) : emitL hr st TreeList.nil = "" := rfl

theorem findNext_none_emitStack (hr st : Bool) {stack : List TreeList}
    (h : findNext stack = none) : emitStack hr st stack = "" := by
  induction stack with
  | nil => rfl
  | cons hd rest ih =>
    cases hd with
    | nil =>
      have h' : findNext rest = none := h
      show emitL hr st TreeList.nil ++ emitStack hr st rest = ""
      rw [emitL_nil, String.empty_append]
      exact ih h'
    | cons nx af => simp [findNext] at h

theorem findNext_some_emitStack (hr st : Bool) {stack stack' : List TreeList} {next : Tree}
    (h : findNext stack = some (next, stack')) :
    emitStack hr st stack = emitT hr st next ++ emitStack hr st stack' := by
  induction stack with
  | nil => simp [findNext] at h
  | cons hd rest ih =>
    cases hd with
    | nil =>
      have h' : findNext rest = some (next, stack') := h
      show emitL hr st TreeList.nil ++ emitStack hr st rest = _
      rw [emitL_nil, String.empty_append]
      exact ih h'
    | cons nx af =>
      have h' : (nx, af :: rest) = (next, stack') := by
        simpa [findNext] using h
      injection h' with h1 h2
      subst h1; subst h2
      show emitL hr st (TreeList.cons nx af) ++ emitStack hr st rest = _
      rw [emitL_cons, String.append_assoc]
      rfl

theorem tokGo_emit (hr st : Bool) (cur : Tree) (stack : List TreeList) :
    tokGo hr st cur stack = emitT hr st cur ++ emitStack hr st stack := by
  induction cur, stack using tokGo.induct hr st with
  | case1 cur stack c cs h ih =>
    rw [tokGo_unfold_cons hr st stack h, ih]
    cases cur with
    | mk k r x cs0 =>
      have hcs : cs0 = TreeList.cons c cs := h
      subst hcs
      have hout : tokOut hr st (Tree.mk k r x (TreeList.cons c cs)) = "" := by
        unfold tokOut
        rw [child_count_mk, TreeList.length]
        simp
      rw [hout, String.empty_append, emitT_node]
      show emitT hr st c ++ (emitL hr st cs ++ emitStack hr st stack) = _
      rw [emitL_cons, String.append_assoc]
  | case2 cur stack h h2 =>
    rw [tokGo_unfold_leaf_done hr st stack h h2]
    have hout : tokOut hr st cur = tokenLine hr st cur := by
      unfold tokOut
      cases cur with
      | mk k r x cs0 =>
        have hcs : cs0 = TreeList.nil := h
        subst hcs
        rw [child_count_mk]
        rfl
    rw [hout, findNext_none_emitStack hr st h2, String.append_empty, emitT_leaf hr st h]
  | case3 cur stack h next stack' h2 ih =>
    rw [tokGo_unfold_leaf_next hr st h h2, ih]
    have hout : tokOut hr st cur = tokenLine hr st cur := by
      unfold tokOut
      cases cur with
      | mk k r x cs0 =>
        have hcs : cs0 = TreeList.nil := h
        subst hcs
        rw [child_count_mk]
        rfl
    rw [hout, ← emitT_leaf hr st h, findNext_some_emitStack hr st h2]

theorem print_tokens_eq (root : Tree) (hr st : Bool) :
    print_tokens root hr st =
      strConcat (((Tree.preorder root).filter (fun u => u.child_count == 0)).map
        (tokenLine hr st)) := by
  unfold print_tokens
  rw [tokGo_emit]
  show emitT hr st root ++ emitStack hr st [] = _
  rw [show emitStack hr st [] = "" from rfl, String.append_empty]
  rfl

/-! The `.data` views of the strings handed to the parser in the claims. -/

theorem data_single (n : Nat) : (natStr n).data = natDigits n := rfl

theorem data_dd (n m : Nat) :
    (natStr n ++ ".." ++ natStr m).data = natDigits n ++ '.' :: '.' :: natDigits m := by
  rw [show (natStr n ++ ".." ++ natStr m).data =
    (natDigits n ++ ['.', '.']) ++ natDigits m from rfl]
  simp

theorem data_dde (n m : Nat) :
    (natStr n ++ "..=" ++ natStr m).data = natDigits n ++ '.' :: '.' :: '=' :: natDigits m := by
  rw [show (natStr n ++ "..=" ++ natStr m).data =
    (natDigits n ++ ['.', '.', '=']) ++ natDigits m from rfl]
  simp

theorem data_open (n : Nat) : (natStr n ++ "..").data = natDigits n ++ ['.', '.'] := rfl

/-! A node count for the rendered tree, and lines of an output string. -/

mutual
theorem preorderD_length_tree (t : Tree) (d : Nat) : (Tree.preorderD t d).length = t.size := by
  cases t with
  | mk k r x cs =>
    rw [Tree.preorderD, Tree.size]
    simp [preorderD_length_list cs (d + 1)]
    omega
theorem preorderD_length_list (ts : TreeList) (d : Nat) :
    (TreeList.preorderD ts d).length = ts.size := by
  cases ts with
  | nil => rw [TreeList.preorderD, TreeList.size]; rfl
  | cons t rest =>
    rw [TreeList.preorderD, TreeList.size]
    simp [preorderD_length_tree t d, preorderD_length_list rest d]
end

/-- Split a character list at each newline character. -/
def splitNL : List Char → List (List Char)
  | [] => [[]]
  | c :: rest => if c = Char.ofNat 10 then [] :: splitNL rest else consHead c (splitNL rest)

/-- The lines of a rendered output (its final newline closes the last
line, as `str::lines` reads it). -/
def linesOf (s : String) : List (List Char) := (splitNL s.data).dropLast

/-! A three-level example tree: root `"A"`, child `"B"`, grandchild
`"C"`, plus a two-level variant. -/

def exC : Tree := Tree.mk "C" "" "" TreeList.nil

def exB : Tree := Tree.mk "B" "" "" (TreeList.cons exC TreeList.nil)

def exA : Tree := Tree.mk "A" "" "" (TreeList.cons exB TreeList.nil)

def exAB : Tree := Tree.mk "A" "" "" (TreeList.cons (Tree.mk "B" "" "" TreeList.nil) TreeList.nil)

/-- The depth range parsed from `"2"`: exactly depth 2. -/
def range2 : DepthRange := ⟨Endpoint.Inclusive 2, Endpoint.Inclusive 2⟩

/-!
The claims.
-/

/-- C1: for every tree, depth, range and display configuration,
`write_tree` renders exactly the full pre-order traversal of the tree,
emitting a node's line precisely when `should_print` accepts its depth —
traversal is never pruned, only emission is filtered.  In particular, on
the tree `A → B → C` with range `"2"` (which excludes depths 0 and 1 and
admits depth 2), the output is exactly the grandchild's line `"C\n"`:
the root's and child's lines are absent, the grandchild's is present. -/
theorem range_filter_suppresses_lines_not_traversal :
    (∀ (t : Tree) (d : Nat) (r : Option DepthRange) (cfg : DisplayConfig),
      writeTree t d r cfg =
        strConcat ((Tree.preorderD t d).map
          (fun p => if should_print p.2 r then nodeLine p.1 p.2 r cfg else "")))
    ∧ should_print 0 (some range2) = false
    ∧ should_print 1 (some range2) = false
    ∧ should_print 2 (some range2) = true
    ∧ writeTree exA 0 (some range2) cfgOff = "C\n"
    ∧ nodeLine exC 2 (some range2) cfgOff = "C\n" :=
  ⟨writeTree_eq_preorder, rfl, rfl, rfl, rfl, rfl⟩

/-- C2: for `n ≤ m` (representable as `usize`), `"n..m"` parses to the
range `[Inclusive n, Exclusive m)` whose containment is `n ≤ k < m`, and
`"n..=m"` parses to `[Inclusive n, Inclusive m]` whose containment is
`n ≤ k ≤ m`, for every depth `k`. -/
theorem parse_bounded_range_contains (n m : Nat) (hnm : n ≤ m) (hm : m ≤ usizeMax) :
    DepthRange.from_str (natStr n ++ ".." ++ natStr m) =
        Except.ok ⟨Endpoint.Inclusive n, Endpoint.Exclusive m⟩
    ∧ DepthRange.from_str (natStr n ++ "..=" ++ natStr m) =
        Except.ok ⟨Endpoint.Inclusive n, Endpoint.Inclusive m⟩
    ∧ (∀ k : Nat, DepthRange.contains ⟨Endpoint.Inclusive n, Endpoint.Exclusive m⟩ k = true
        ↔ n ≤ k ∧ k < m)
    ∧ (∀ k : Nat, DepthRange.contains ⟨Endpoint.Inclusive n, Endpoint.Inclusive m⟩ k = true
        ↔ n ≤ k ∧ k ≤ m) := by
  have hn : n ≤ usizeMax := le_trans hnm hm
  refine ⟨?_, ?_, ?_, ?_⟩
  · show fromChars (natStr n ++ ".." ++ natStr m).data = _
    rw [data_dd, fromChars_dd n m hn hm, if_neg (by omega)]
  · show fromChars (natStr n ++ "..=" ++ natStr m).data = _
    rw [data_dde, fromChars_dde n m hn hm, if_neg (by omega)]
  · intro k
    simp [DepthRange.contains]
  · intro k
    simp [DepthRange.contains]

/-- Witness for C2 at `n = 1`, `m = 3`. -/
theorem parse_bounded_range_contains_witness :
    DepthRange.from_str (natStr 1 ++ ".." ++ natStr 3) =
        Except.ok ⟨Endpoint.Inclusive 1, Endpoint.Exclusive 3⟩
    ∧ (DepthRange.contains ⟨Endpoint.Inclusive 1, Endpoint.Exclusive 3⟩ 2 = true
        ↔ 1 ≤ 2 ∧ 2 < 3) :=
  ⟨(parse_bounded_range_contains 1 3 (by decide) (by decide)).1,
   (parse_bounded_range_contains 1 3 (by decide) (by decide)).2.2.1 2⟩

/-- C3: `"n"` parses to the range with both bounds `Inclusive n`; it
contains `n`, and for `n > 0` it contains neither `n - 1` nor `n + 1`. -/
theorem parse_single_number (n : Nat) (hn : n ≤ usizeMax) :
    DepthRange.from_str (natStr n) = Except.ok ⟨Endpoint.Inclusive n, Endpoint.Inclusive n⟩
    ∧ DepthRange.contains ⟨Endpoint.Inclusive n, Endpoint.Inclusive n⟩ n = true
    ∧ (0 < n →
        DepthRange.contains ⟨Endpoint.Inclusive n, Endpoint.Inclusive n⟩ (n - 1) = false
        ∧ DepthRange.contains ⟨Endpoint.Inclusive n, Endpoint.Inclusive n⟩ (n + 1) = false) := by
  refine ⟨?_, ?_, ?_⟩
  · show fromChars (natStr n).data = _
    rw [data_single]
    exact fromChars_single n hn
  · simp [DepthRange.contains]
  · intro hpos
    constructor
    · simp [DepthRange.contains]
      omega
    · simp [DepthRange.contains]

/-- Witness for C3 at `n = 3`. -/
theorem parse_single_number_witness :
    DepthRange.from_str (natStr 3) = Except.ok ⟨Endpoint.Inclusive 3, Endpoint.Inclusive 3⟩
    ∧ DepthRange.contains ⟨Endpoint.Inclusive 3, Endpoint.Inclusive 3⟩ (3 - 1) = false
    ∧ DepthRange.contains ⟨Endpoint.Inclusive 3, Endpoint.Inclusive 3⟩ (3 + 1) = false :=
  ⟨(parse_single_number 3 (by decide)).1,
   ((parse_single_number 3 (by decide)).2.2 (by decide)).1,
   ((parse_single_number 3 (by decide)).2.2 (by decide)).2⟩

/-- C4: `"n.."` parses to the range from `Inclusive n` up to
`Inclusive usizeMax`; it contains every representable depth `k ≥ n`,
including the maximum representable depth itself. -/
theorem parse_open_ended_range (n : Nat) (hn : n ≤ usizeMax) :
    DepthRange.from_str (natStr n ++ "..") =
        Except.ok ⟨Endpoint.Inclusive n, Endpoint.Inclusive usizeMax⟩
    ∧ (∀ k : Nat, n ≤ k → k ≤ usizeMax →
        DepthRange.contains ⟨Endpoint.Inclusive n, Endpoint.Inclusive usizeMax⟩ k = true)
    ∧ DepthRange.contains ⟨Endpoint.Inclusive n, Endpoint.Inclusive usizeMax⟩ usizeMax
        = true := by
  refine ⟨?_, ?_, ?_⟩
  · show fromChars (natStr n ++ "..").data = _
    rw [data_open]
    exact fromChars_open_end n hn
  · intro k h1 h2
    simp [DepthRange.contains]
    omega
  · simp [DepthRange.contains, hn]

/-- Witness for C4 at `n = 3`, `k = 100`. -/
theorem parse_open_ended_range_witness :
    DepthRange.from_str (natStr 3 ++ "..") =
        Except.ok ⟨Endpoint.Inclusive 3, Endpoint.Inclusive usizeMax⟩
    ∧ DepthRange.contains ⟨Endpoint.Inclusive 3, Endpoint.Inclusive usizeMax⟩ 100 = true
    ∧ DepthRange.contains ⟨Endpoint.Inclusive 3, Endpoint.Inclusive usizeMax⟩ usizeMax
        = true :=
  ⟨(parse_open_ended_range 3 (by decide)).1,
   (parse_open_ended_range 3 (by decide)).2.1 100 (by decide) (by decide),
   (parse_open_ended_range 3 (by decide)).2.2⟩

/-- C5: parsing fails on the non-numeric token `"a"`, the malformed
separator `"3...5"`, the non-range delimiter `"1,2"`, and every bounded
form whose start exceeds its end, in particular `"5..3"` and `"5..=3"`. -/
theorem parse_error_cases :
    isErr (DepthRange.from_str "a") = true
    ∧ isErr (DepthRange.from_str "3...5") = true
    ∧ isErr (DepthRange.from_str "1,2") = true
    ∧ (∀ n m : Nat, m < n → n ≤ usizeMax →
        isErr (DepthRange.from_str (natStr n ++ ".." ++ natStr m)) = true
        ∧ isErr (DepthRange.from_str (natStr n ++ "..=" ++ natStr m)) = true)
    ∧ isErr (DepthRange.from_str "5..3") = true
    ∧ isErr (DepthRange.from_str "5..=3") = true := by
  refine ⟨rfl, rfl, rfl, ?_, rfl, rfl⟩
  intro n m hlt hn
  have hm : m ≤ usizeMax := le_trans (le_of_lt hlt) hn
  constructor
  · show isErr (fromChars (natStr n ++ ".." ++ natStr m).data) = true
    rw [data_dd, fromChars_dd n m hn hm, if_pos (by omega)]
    rfl
  · show isErr (fromChars (natStr n ++ "..=" ++ natStr m).data) = true
    rw [data_dde, fromChars_dde n m hn hm, if_pos (by omega)]
    rfl

/-- Witness for C5's inverted-bounds clause at `n = 5`, `m = 3`. -/
theorem parse_error_cases_witness :
    isErr (DepthRange.from_str (natStr 5 ++ ".." ++ natStr 3)) = true
    ∧ isErr (DepthRange.from_str (natStr 5 ++ "..=" ++ natStr 3)) = true :=
  parse_error_cases.2.2.2.1 5 3 (by decide) (by decide)

/-- C6: every range the parser returns satisfies the invariant that the
start bound's numeric value does not exceed the end bound's numeric
value (all bounds carry finite numbers; the open end is stored as the
maximum representable depth). -/
theorem parsed_range_start_le_end (s : String) (r : DepthRange)
    (h : DepthRange.from_str s = Except.ok r) : r.start.val ≤ r.«end».val :=
  (fromChars_ok_inv h).2

/-- Witness for C6 on the input `"3"`. -/
theorem parsed_range_start_le_end_witness :
    DepthRange.from_str "3" = Except.ok ⟨Endpoint.Inclusive 3, Endpoint.Inclusive 3⟩
    ∧ (⟨Endpoint.Inclusive 3, Endpoint.Inclusive 3⟩ : DepthRange).start.val ≤
        (⟨Endpoint.Inclusive 3, Endpoint.Inclusive 3⟩ : DepthRange).«end».val :=
  ⟨rfl, parsed_range_start_le_end "3" ⟨Endpoint.Inclusive 3, Endpoint.Inclusive 3⟩ rfl⟩

/-- C7 counterexample: with every flag disabled and no range, the output
is one line per node, but a non-root line carries the dash-ladder
indentation in front of the kind label, so it does not consist of the
kind label alone: on the tree `A → B`, the output is `"A\n-+B\n"` and
its second line `"-+B"` is not the kind label of any node. -/
theorem tree_line_not_only_kind_label :
    writeTree exAB 0 none cfgOff = "A\n-+B\n"
    ∧ ¬ (∀ l ∈ linesOf (writeTree exAB 0 none cfgOff),
          ∃ t ∈ Tree.preorder exAB, l = t.kind.data) := by
  constructor
  · rfl
  · decide

/-- C7 amended: with every display flag disabled and no range supplied,
`write_tree` produces exactly one line per node of the tree, in
pre-order, and each line is the node's depth indentation prefix (empty
for the root) followed by exactly the node's kind label. -/
theorem tree_render_off_one_line_per_node :
    (∀ t : Tree, writeTree t 0 none cfgOff =
      strConcat ((Tree.preorderD t 0).map (fun p => indentOf p.2 none ++ p.1.kind ++ "\n")))
    ∧ (∀ t : Tree,
        ((Tree.preorderD t 0).map (fun p => indentOf p.2 none ++ p.1.kind ++ "\n")).length
          = t.size) :=
  ⟨writeTree_off, fun t => by rw [List.length_map]; exact preorderD_length_tree t 0⟩

/-- C8: the renderer's indentation is range-relative: width is
determined by `depth` minus the effective start depth (the start value,
plus one if the start bound is exclusive, zero with no range), clamped
to zero — in particular, whenever `depth` is at or below the reference
depth the prefix is empty and the computation is total (no underflow). -/
theorem indentation_range_relative :
    (∀ (depth : Nat) (r : Option DepthRange),
        (depth ≤ base_depth r → indentOf depth r = "")
      ∧ (base_depth r < depth →
          (indentOf depth r).length = (depth - base_depth r - 1) * INDENT_SIZE + 2))
    ∧ base_depth none = 0
    ∧ (∀ (n : Nat) (e : Endpoint), base_depth (some ⟨Endpoint.Inclusive n, e⟩) = n)
    ∧ (∀ (n : Nat) (e : Endpoint), base_depth (some ⟨Endpoint.Exclusive n, e⟩) = n + 1) :=
  ⟨fun depth r => ⟨indentOf_le_base depth r, indentOf_gt_base depth r⟩,
   rfl, fun _ _ => rfl, fun _ _ => rfl⟩

/-- Witness for C8 with the range `(Exclusive 1, Inclusive 5)` (reference
depth 2): at depth 1 the prefix is empty, at depth 3 it has width 2. -/
theorem indentation_range_relative_witness :
    indentOf 1 (some ⟨Endpoint.Exclusive 1, Endpoint.Inclusive 5⟩) = ""
    ∧ (indentOf 3 (some ⟨Endpoint.Exclusive 1, Endpoint.Inclusive 5⟩)).length =
        (3 - base_depth (some ⟨Endpoint.Exclusive 1, Endpoint.Inclusive 5⟩) - 1)
          * INDENT_SIZE + 2 :=
  ⟨(indentation_range_relative.1 1 (some ⟨Endpoint.Exclusive 1, Endpoint.Inclusive 5⟩)).1
     (by decide),
   (indentation_range_relative.1 3 (some ⟨Endpoint.Exclusive 1, Endpoint.Inclusive 5⟩)).2
     (by decide)⟩

/-- C9: `print_tokens` emits exactly the token lines of the leaf nodes
(`child_count == 0`), in left-to-right depth-first pre-order, with no
depth filtering and nothing for internal nodes; the iterative cursor
walk terminates exactly when it can neither advance to a sibling nor
ascend further. -/
theorem tokens_one_line_per_leaf :
    ∀ (root : Tree) (hide_range show_text : Bool),
      print_tokens root hide_range show_text =
        strConcat (((Tree.preorder root).filter (fun u => u.child_count == 0)).map
          (tokenLine hide_range show_text)) :=
  fun root hr st => print_tokens_eq root hr st

/-- C10: every range the parser returns has an inclusive start bound, so
the renderer's reference depth for such a range is always the start
bound's value — the `Exclusive` arm of `base_depth` is unreachable for
parser-produced ranges. -/
theorem parsed_range_start_always_inclusive (s : String) (r : DepthRange)
    (h : DepthRange.from_str s = Except.ok r) :
    (∃ n, r.start = Endpoint.Inclusive n) ∧ base_depth (some r) = r.start.val := by
  obtain ⟨⟨n, hn⟩, _⟩ := fromChars_ok_inv h
  refine ⟨⟨n, hn⟩, ?_⟩
  show (match r.start with
    | Endpoint.Inclusive start => start
    | Endpoint.Exclusive start => start + 1) = r.start.val
  rw [hn]
  rfl

/-- Witness for C10 on the input `"3"`. -/
theorem parsed_range_start_always_inclusive_witness :
    (∃ n, (⟨Endpoint.Inclusive 3, Endpoint.Inclusive 3⟩ : DepthRange).start
        = Endpoint.Inclusive n)
    ∧ base_depth (some ⟨Endpoint.Inclusive 3, Endpoint.Inclusive 3⟩) =
        (⟨Endpoint.Inclusive 3, Endpoint.Inclusive 3⟩ : DepthRange).start.val :=
  parsed_range_start_always_inclusive "3" ⟨Endpoint.Inclusive 3, Endpoint.Inclusive 3⟩ rfl

end TreeViewer
